import Mathlib

/-!
Verification of a Brainfuck toolchain (`brainfuck.cpp`): a recursive-descent
parser with run-length folding and a clear-cell-loop rewrite, an AST of
command leaves and loop/program containers, a printer leaf backend and a
tape-machine interpreter backend.

The development shallowly embeds the C++ source: `parseF`/`parse` embed
`parse(fstream&, Container*)`, `printCommandNode` embeds
`Printer::visit(CommandNode)`, `step`/`repeatStep`/`exec`/`visitProgram`
embed the `Interpreter` visitor, and `driverAccepts` embeds `main`'s loop
over input files.  Machine integers are `Nat` with explicit `% 256`; code
paths whose C++ behavior is undefined (a null `dynamic_cast` result being
dereferenced, a tape access through an out-of-range pointer) are modelled
as `Option.none`.
-/

namespace Brainfuck

/-- The primitive command kinds, from the C++ `enum Command`.
`ZERO` is the synthetic kind produced only by the `[-]`/`[+]` rewrite. -/
inductive Command where
  | INCREMENT
  | DECREMENT
  | SHIFT_LEFT
  | SHIFT_RIGHT
  | INPUT
  | OUTPUT
  | ZERO
deriving DecidableEq

/-- AST nodes: `cmd` embeds `CommandNode` (a command kind plus a repeat
count), `loop` embeds `Loop` (an ordered child list).  A `Program` is the
root child list, kept as a bare `List Node`. -/
inductive Node where
  | cmd (command : Command) (count : Nat)
  | loop (children : List Node)

/-- The six characters recognized as commands by `parse`
(`c == '+' || c == '-' || c == '<' || c == '>' || c == ',' || c == '.'`). -/
def isCmdChar (c : Char) : Bool :=
  c = '+' || c = '-' || c = '<' || c = '>' || c = ',' || c = '.'

/-- The `CommandNode(char, int)` constructor's switch over the command
character (the `'z'` case is covered by `parse` building `Node.cmd .ZERO 1`
directly). -/
def charToCommand (c : Char) : Command :=
  if c = '+' then Command.INCREMENT
  else if c = '-' then Command.DECREMENT
  else if c = '<' then Command.SHIFT_LEFT
  else if c = '>' then Command.SHIFT_RIGHT
  else if c = ',' then Command.INPUT
  else Command.OUTPUT

/-- The run-length folding loop
`while(((char)file.peek()) == c){ file >> c; count++; }`:
consume the maximal run of characters equal to `c`, returning how many were
consumed together with the remaining stream. -/
def squash (c : Char) : List Char → Nat × List Char
  | [] => (0, [])
  | d :: rest =>
    if d = c then
      let p := squash c rest
      (p.1 + 1, p.2)
    else (0, d :: rest)

/-- Fuel-indexed embedding of `parse(fstream&, Container*)`.  The stream is
a `List Char`; the result is the list of nodes appended to the target
container plus the unconsumed remainder of the stream (`parse` returns to
its caller on `]` or end of stream).  `none` models the undefined behavior
of dereferencing the null result of
`dynamic_cast<CommandNode*>(program->children.front())` when a loop's single
child is itself a `Loop`.  Any character that is neither a command character
nor a bracket is skipped, exactly as the C++ loop falls through (whitespace,
skipped by `file >> c`, is likewise never equal to a command character at
the `peek` comparison, so skipping it here is observationally identical). -/
def parseF : Nat → List Char → Option (List Node × List Char)
  | 0, _ => none
  | fuel + 1, l =>
    match l with
    | [] => some ([], [])
    | c :: rest =>
      if isCmdChar c then
        let p := squash c rest
        match parseF fuel p.2 with
        | some pr => some (Node.cmd (charToCommand c) (p.1 + 1) :: pr.1, pr.2)
        | none => none
      else if c = '[' then
        match parseF fuel rest with
        | none => none
        | some pr =>
          match pr.1 with
          | [Node.cmd com _] =>
            if com = Command.INCREMENT ∨ com = Command.DECREMENT then
              match parseF fuel pr.2 with
              | some qr => some (Node.cmd Command.ZERO 1 :: qr.1, qr.2)
              | none => none
            else
              match parseF fuel pr.2 with
              | some qr => some (Node.loop pr.1 :: qr.1, qr.2)
              | none => none
          | [Node.loop _] => none
          | _ =>
            match parseF fuel pr.2 with
            | some qr => some (Node.loop pr.1 :: qr.1, qr.2)
            | none => none
      else if c = ']' then some ([], rest)
      else parseF fuel rest

/-- `parse` on a finite stream: one unit of fuel per character suffices,
since every recursive call consumes at least nothing but strictly decreases
fuel while the stream only shrinks. -/
def parse (l : List Char) : Option (List Node × List Char) :=
  parseF (l.length + 1) l

/-- The character printed for each command kind in
`Printer::visit(CommandNode)` (`ZERO` is printed as `'z'`). -/
def commandChar : Command → Char
  | Command.INCREMENT => '+'
  | Command.DECREMENT => '-'
  | Command.SHIFT_LEFT => '<'
  | Command.SHIFT_RIGHT => '>'
  | Command.INPUT => ','
  | Command.OUTPUT => '.'
  | Command.ZERO => 'z'

/-- `Printer::visit(CommandNode)`: the `for (i = 0; i < leaf->count; i++)`
loop emits `count` copies of the node's command character. -/
def printCommandNode (command : Command) (count : Nat) : List Char :=
  List.replicate count (commandChar command)

/-- The interpreter's machine state: the tape (`char memory[30000]`,
modelled as a total function with cell values kept below 256), the
`int pointer`, and the external input and output byte streams
(`cin` / `cout`). -/
@[ext]
structure IState where
  memory : Nat → Nat
  pointer : Int
  inp : List Nat
  out : List Nat

/-- Reading `memory[pointer]`: defined only while the pointer stays inside
the declared 30000-cell array; an access through an out-of-range pointer is
undefined behavior in the C++ source and yields `none` here. -/
def readCell (s : IState) : Option Nat :=
  if 0 ≤ s.pointer ∧ s.pointer < 30000 then some (s.memory s.pointer.toNat)
  else none

/-- The raw effect of storing `v` into the current cell. -/
def setCell (s : IState) (v : Nat) : IState :=
  { s with memory := fun i => if i = s.pointer.toNat then v else s.memory i }

/-- Writing `memory[pointer] = v`, with the same in-bounds proviso as
`readCell`. -/
def writeCell (s : IState) (v : Nat) : Option IState :=
  if 0 ≤ s.pointer ∧ s.pointer < 30000 then some (setCell s v) else none

/-- One iteration of the `switch` in `Interpreter::visit(CommandNode)`:
`memory[pointer]++` and `memory[pointer]--` wrap modulo 256 (8-bit cells),
`pointer--`/`pointer++` move the pointer with no bounds check,
`cin.get(memory[pointer])` stores the next input byte and leaves the cell
unchanged when the stream is exhausted (`get` fails without touching its
argument), `cout << memory[pointer]` appends the cell to the output, and
the `ZERO` case stores 0 directly. -/
def step : Command → IState → Option IState
  | Command.INCREMENT, s =>
    match readCell s with
    | some v => writeCell s ((v + 1) % 256)
    | none => none
  | Command.DECREMENT, s =>
    match readCell s with
    | some v => writeCell s ((v + 255) % 256)
    | none => none
  | Command.SHIFT_LEFT, s => some { s with pointer := s.pointer - 1 }
  | Command.SHIFT_RIGHT, s => some { s with pointer := s.pointer + 1 }
  | Command.INPUT, s =>
    match s.inp with
    | [] => if 0 ≤ s.pointer ∧ s.pointer < 30000 then some s else none
    | b :: rest =>
      match writeCell s (b % 256) with
      | some s2 => some { s2 with inp := rest }
      | none => none
  | Command.OUTPUT, s =>
    match readCell s with
    | some v => some { s with out := s.out ++ [v] }
    | none => none
  | Command.ZERO, s => writeCell s 0

/-- The `for (i = 0; i < leaf->count; i++)` loop of
`Interpreter::visit(CommandNode)`: repeat the primitive effect `count`
times. -/
def repeatStep (command : Command) : Nat → IState → Option IState
  | 0, s => some s
  | n + 1, s =>
    match step command s with
    | some s2 => repeatStep command n s2
    | none => none

/-- Fuel-indexed execution of a node list.  A `cmd` node runs its repeated
primitive effect and continues; a `loop` node embeds
`Interpreter::visit(Loop)`: `while (memory[pointer]) { visit children; }`,
re-reading the current cell before every full pass.  Fuel decreases on
every re-entry of a loop, so `none` covers both an undefined tape access
and fuel exhaustion (a pass count larger than the supplied fuel). -/
def exec : Nat → List Node → IState → Option IState
  | 0, _, _ => none
  | fuel + 1, ns, s =>
    match ns with
    | [] => some s
    | Node.cmd command count :: rest =>
      match repeatStep command count s with
      | some s2 => exec fuel rest s2
      | none => none
    | Node.loop body :: rest =>
      match readCell s with
      | none => none
      | some v =>
        if v = 0 then exec fuel rest s
        else
          match exec fuel body s with
          | some s2 => exec fuel (Node.loop body :: rest) s2
          | none => none

/-- The tape indices written by the initialization loop of
`Interpreter::visit(Program)`, `for(int i = 0; i <= 30000; i++)
memory[i] = 0;`: `i` runs over 0, 1, …, 30000 inclusive. -/
def initWriteIndices : List Nat := List.range 30001

/-- The initialization performed at the top of
`Interpreter::visit(Program)`: zero every index the loop touches and set
`pointer = 0`. -/
def initState (s : IState) : IState :=
  { s with
    memory := fun i => if i ∈ initWriteIndices then 0 else s.memory i
    pointer := 0 }

/-- `Interpreter::visit(Program)`: initialize the tape and pointer, then
visit every child in order. -/
def visitProgram (fuel : Nat) (children : List Node) (s : IState) :
    Option IState :=
  exec fuel children (initState s)

/-- A machine state whose cells all hold `v`, with the pointer at 0 and no
pending input or produced output; used to instantiate theorems at concrete
starting cell values. -/
def stateWith (v : Nat) : IState :=
  { memory := fun _ => v, pointer := 0, inp := [], out := [] }

/-- The all-zero starting state. -/
def state0 : IState := stateWith 0

/-- The list of children `parse(file, &program)` appends to the shared
`Program` for one input file (the remainder left on the stream when the
top-level call returns is discarded, as `main` closes the file). -/
def parseTop (l : List Char) : Option (List Node) :=
  match parse l with
  | some p => some p.1
  | none => none

/-- `main`'s loop over `argv`: each iteration parses the next file into the
one shared `Program` object and then runs `program.accept(&interpreter)`.
The result is the sequence of child lists the interpreter is handed, one
per input file; `acc` is the shared program's current child list. -/
def driverAccepts : List (List Char) → List Node → Option (List (List Node))
  | [], _ => some []
  | f :: fs, acc =>
    match parseTop f with
    | none => none
    | some ns =>
      match driverAccepts fs (acc ++ ns) with
      | some rest => some ((acc ++ ns) :: rest)
      | none => none

/-- The per-file parses of a file list, kept separate (used to state what
the accumulated program after file `k` is made of). -/
def parseAll : List (List Char) → Option (List (List Node))
  | [] => some []
  | f :: fs =>
    match parseTop f, parseAll fs with
    | some ns, some rest => some (ns :: rest)
    | _, _ => none

/-! Basic lemmas about the machine-state operations. -/

theorem readCell_eq_some {s : IState} {v : Nat} (h : readCell s = some v) :
    (0 ≤ s.pointer ∧ s.pointer < 30000) ∧ s.memory s.pointer.toNat = v := by
  unfold readCell at h
  split at h
  · exact ⟨by assumption, by injection h⟩
  · cases h

theorem writeCell_of_bounds {s : IState}
    (h : 0 ≤ s.pointer ∧ s.pointer < 30000) (v : Nat) :
    writeCell s v = some (setCell s v) := by
  simp [writeCell, h]

theorem setCell_pointer (s : IState) (v : Nat) :
    (setCell s v).pointer = s.pointer := rfl

theorem readCell_setCell (s : IState) (w : Nat)
    (h : 0 ≤ s.pointer ∧ s.pointer < 30000) :
    readCell (setCell s w) = some w := by
  simp [readCell, setCell, h]

theorem setCell_self {s : IState} {v : Nat}
    (h : s.memory s.pointer.toNat = v) : setCell s v = s := by
  have hm : (fun i => if i = s.pointer.toNat then v else s.memory i)
      = s.memory := by
    funext i
    by_cases hi : i = s.pointer.toNat
    · rw [if_pos hi, hi]; exact h.symm
    · rw [if_neg hi]
  show { s with memory := fun i => if i = s.pointer.toNat then v
      else s.memory i } = s
  rw [hm]

theorem setCell_setCell (s : IState) (w u : Nat) :
    setCell (setCell s w) u = setCell s u := by
  unfold setCell
  congr 1
  funext i
  by_cases hi : i = s.pointer.toNat <;> simp [hi]

theorem step_INCREMENT {s : IState} {v : Nat} (h : readCell s = some v) :
    step Command.INCREMENT s = some (setCell s ((v + 1) % 256)) := by
  have hb := (readCell_eq_some h).1
  simp [step, h, writeCell_of_bounds hb]

theorem step_DECREMENT {s : IState} {v : Nat} (h : readCell s = some v) :
    step Command.DECREMENT s = some (setCell s ((v + 255) % 256)) := by
  have hb := (readCell_eq_some h).1
  simp [step, h, writeCell_of_bounds hb]

/-- Repeated increment from cell value `v`: the cell ends at
`(v + n) % 256` and nothing else changes. -/
theorem repeatStep_INCREMENT {s : IState} {v : Nat} (n : Nat)
    (hv : readCell s = some v) (h256 : v < 256) :
    repeatStep Command.INCREMENT n s = some (setCell s ((v + n) % 256)) := by
  induction n generalizing s v with
  | zero =>
    have h0 : (v + 0) % 256 = v := by omega
    simp only [repeatStep, h0, setCell_self (readCell_eq_some hv).2]
  | succ m ih =>
    have hb := (readCell_eq_some hv).1
    have hv2 : readCell (setCell s ((v + 1) % 256)) = some ((v + 1) % 256) :=
      readCell_setCell s _ hb
    have h2 : (v + 1) % 256 < 256 := Nat.mod_lt _ (by omega)
    have harith : ((v + 1) % 256 + m) % 256 = (v + (m + 1)) % 256 := by omega
    simp only [repeatStep, step_INCREMENT hv, ih hv2 h2, setCell_setCell,
      harith]

/-- Repeated decrement from cell value `v`: the cell ends at
`(v + 255 * n) % 256` (that is, `v - n` modulo 256). -/
theorem repeatStep_DECREMENT {s : IState} {v : Nat} (n : Nat)
    (hv : readCell s = some v) (h256 : v < 256) :
    repeatStep Command.DECREMENT n s
      = some (setCell s ((v + 255 * n) % 256)) := by
  induction n generalizing s v with
  | zero =>
    have h0 : (v + 255 * 0) % 256 = v := by omega
    simp only [repeatStep, h0, setCell_self (readCell_eq_some hv).2]
  | succ m ih =>
    have hb := (readCell_eq_some hv).1
    have hv2 : readCell (setCell s ((v + 255) % 256))
        = some ((v + 255) % 256) := readCell_setCell s _ hb
    have h2 : (v + 255) % 256 < 256 := Nat.mod_lt _ (by omega)
    have harith : ((v + 255) % 256 + 255 * m) % 256
        = (v + 255 * (m + 1)) % 256 := by omega
    simp only [repeatStep, step_DECREMENT hv, ih hv2 h2, setCell_setCell,
      harith]

/-! Unfolding equations for `exec`, packaged as plain lemmas. -/

theorem exec_zero (l : List Node) (s : IState) : exec 0 l s = none := rfl

theorem exec_nil (fuel : Nat) (s : IState) : exec (fuel + 1) [] s = some s :=
  rfl

theorem exec_cmd (fuel : Nat) (c : Command) (n : Nat) (rest : List Node)
    (s : IState) :
    exec (fuel + 1) (Node.cmd c n :: rest) s
      = match repeatStep c n s with
        | some s2 => exec fuel rest s2
        | none => none := rfl

theorem exec_loop (fuel : Nat) (body rest : List Node) (s : IState) :
    exec (fuel + 1) (Node.loop body :: rest) s
      = match readCell s with
        | none => none
        | some v =>
          if v = 0 then exec fuel rest s
          else
            match exec fuel body s with
            | some s2 => exec fuel (Node.loop body :: rest) s2
            | none => none := rfl

theorem exec_single_cmd (fuel : Nat) (c : Command) (n : Nat) (s : IState)
    (h : 2 ≤ fuel) :
    exec fuel [Node.cmd c n] s = repeatStep c n s := by
  obtain ⟨k, rfl⟩ : ∃ k, fuel = k + 2 := ⟨fuel - 2, by omega⟩
  rw [show k + 2 = (k + 1) + 1 from rfl, exec_cmd]
  cases h2 : repeatStep c n s with
  | none => rfl
  | some s2 => exact exec_nil k s2

theorem exec_loop_enter (fuel : Nat) (body rest : List Node) (s : IState)
    {v : Nat} (hv : readCell s = some v) (hne : v ≠ 0) :
    exec (fuel + 1) (Node.loop body :: rest) s
      = match exec fuel body s with
        | some s2 => exec fuel (Node.loop body :: rest) s2
        | none => none := by
  rw [exec_loop, hv]
  simp [hne]

theorem exec_loop_exit (fuel : Nat) (body rest : List Node) (s : IState)
    (hv : readCell s = some 0) :
    exec (fuel + 1) (Node.loop body :: rest) s = exec fuel rest s := by
  rw [exec_loop, hv]
  simp

/-- The real clear-cell loop `[-]`: from cell value `v` it performs `v`
decrement passes and stops with the cell at 0; `v + 3` fuel suffices, and
no other state component changes. -/
theorem exec_dec_loop {s : IState} {v : Nat}
    (hv : readCell s = some v) (h256 : v < 256) :
    exec (v + 3) [Node.loop [Node.cmd Command.DECREMENT 1]] s
      = some (setCell s 0) := by
  induction v generalizing s with
  | zero =>
    rw [setCell_self (readCell_eq_some hv).2,
      show (0 : Nat) + 3 = 2 + 1 from rfl, exec_loop_exit _ _ _ _ hv]
    exact exec_nil 1 s
  | succ w ih =>
    have hb := (readCell_eq_some hv).1
    have hbody : exec (w + 3) [Node.cmd Command.DECREMENT 1] s
        = some (setCell s w) := by
      have harith : (w + 1 + 255 * 1) % 256 = w := by omega
      rw [exec_single_cmd _ _ _ _ (by omega),
        repeatStep_DECREMENT 1 hv h256, harith]
    have hv2 : readCell (setCell s w) = some w := readCell_setCell s w hb
    have hrec := ih hv2 (by omega)
    rw [setCell_setCell] at hrec
    rw [show w + 1 + 3 = (w + 3) + 1 from rfl,
      exec_loop_enter _ _ _ _ hv (by omega), hbody]
    exact hrec

/-- The real clear-cell loop `[+]`: from cell value `v` with `v + k = 256`
it performs increment passes until the cell wraps around to 0; `k + 3` fuel
suffices. -/
theorem exec_inc_loop {s : IState} {v k : Nat}
    (hv : readCell s = some v) (h256 : v < 256) (hk : v + k = 256) :
    exec (k + 3) [Node.loop [Node.cmd Command.INCREMENT 1]] s
      = some (setCell s 0) := by
  induction k generalizing s v with
  | zero => omega
  | succ m ih =>
    by_cases hv0 : v = 0
    · subst hv0
      rw [setCell_self (readCell_eq_some hv).2,
        show m + 1 + 3 = (m + 3) + 1 from rfl, exec_loop_exit _ _ _ _ hv]
      exact exec_nil (m + 2) s
    · have hb := (readCell_eq_some hv).1
      have hbody : exec (m + 3) [Node.cmd Command.INCREMENT 1] s
          = some (setCell s ((v + 1) % 256)) := by
        rw [exec_single_cmd _ _ _ _ (by omega),
          repeatStep_INCREMENT 1 hv h256]
      rw [show m + 1 + 3 = (m + 3) + 1 from rfl,
        exec_loop_enter _ _ _ _ hv hv0, hbody]
      by_cases hw : v = 255
      · subst hw
        have h0 : (255 + 1) % 256 = 0 := by omega
        rw [h0]
        have hv2 : readCell (setCell s 0) = some 0 := readCell_setCell s 0 hb
        show exec (m + 3) [Node.loop [Node.cmd Command.INCREMENT 1]]
          (setCell s 0) = some (setCell s 0)
        rw [show m + 3 = (m + 2) + 1 from rfl, exec_loop_exit _ _ _ _ hv2]
        exact exec_nil (m + 1) (setCell s 0)
      · have h1 : (v + 1) % 256 = v + 1 := by omega
        rw [h1]
        have hv2 : readCell (setCell s (v + 1)) = some (v + 1) :=
          readCell_setCell s _ hb
        have hrec := ih hv2 (by omega) (by omega)
        rw [setCell_setCell] at hrec
        exact hrec

/-- Executing `n` separate count-1 command nodes is the same as repeating
the primitive effect `n` times (fuel permitting). -/
theorem exec_replicate_one {n fuel : Nat} {c : Command} {s : IState}
    (h : n < fuel) :
    exec fuel (List.replicate n (Node.cmd c 1)) s = repeatStep c n s := by
  induction n generalizing fuel s with
  | zero =>
    obtain ⟨k, rfl⟩ : ∃ k, fuel = k + 1 := ⟨fuel - 1, by omega⟩
    simp [List.replicate_zero, exec_nil, repeatStep]
  | succ m ih =>
    obtain ⟨k, rfl⟩ : ∃ k, fuel = k + 1 := ⟨fuel - 1, by omega⟩
    rw [List.replicate_succ, exec_cmd]
    cases hs : step c s with
    | none =>
      have h1 : repeatStep c 1 s = none := by simp [repeatStep, hs]
      rw [h1]
      simp [repeatStep, hs]
    | some s2 =>
      have h1 : repeatStep c 1 s = some s2 := by simp [repeatStep, hs]
      rw [h1]
      simp only [repeatStep, hs]
      exact ih (by omega)

/-- A loop whose whole body is a single decrement-by-2 command never
terminates from an odd starting cell: each pass keeps the cell odd (mod-256
arithmetic preserves parity), so it never reaches 0 and every fuel bound is
exhausted. -/
theorem exec_dec2_loop_diverges {fuel : Nat} {s : IState} {v : Nat}
    (hv : readCell s = some v) (h256 : v < 256) (hodd : v % 2 = 1) :
    exec fuel [Node.loop [Node.cmd Command.DECREMENT 2]] s = none := by
  induction fuel generalizing s v with
  | zero => rfl
  | succ f ih =>
    have hne : v ≠ 0 := by omega
    rw [exec_loop_enter f _ _ _ hv hne]
    rcases Nat.lt_or_ge f 2 with hf | hf
    · interval_cases f
      · rfl
      · have hbody : exec 1 [Node.cmd Command.DECREMENT 2] s = none := by
          rw [show (1 : Nat) = 0 + 1 from rfl, exec_cmd,
            repeatStep_DECREMENT 2 hv h256]
          rfl
        rw [hbody]
    · obtain ⟨g, rfl⟩ : ∃ g, f = g + 2 := ⟨f - 2, by omega⟩
      have hb := (readCell_eq_some hv).1
      have hbody : exec (g + 2) [Node.cmd Command.DECREMENT 2] s
          = some (setCell s ((v + 255 * 2) % 256)) := by
        rw [exec_single_cmd _ _ _ _ (by omega),
          repeatStep_DECREMENT 2 hv h256]
      rw [hbody]
      have hv2 : readCell (setCell s ((v + 255 * 2) % 256))
          = some ((v + 255 * 2) % 256) := readCell_setCell s _ hb
      exact ih hv2 (by omega) (by omega)

/-- Printing undoes `charToCommand` on the six command characters. -/
theorem commandChar_charToCommand {c : Char} (h : isCmdChar c = true) :
    commandChar (charToCommand c) = c := by
  simp only [isCmdChar, Bool.or_eq_true, decide_eq_true_eq] at h
  rcases h with ((((h | h) | h) | h) | h) | h <;> subst h <;> rfl

theorem squash_replicate (c : Char) (n : Nat) :
    squash c (List.replicate n c) = (n, []) := by
  induction n with
  | zero => rfl
  | succ m ih => simp [List.replicate_succ, squash, ih]

/-- Parsing a run of `n + 1` copies of a command character: the first read
plus the folding loop produce one node whose count is the whole run
length. -/
theorem parse_replicate {c : Char} (h : isCmdChar c = true) (n : Nat) :
    parse (List.replicate (n + 1) c)
      = some ([Node.cmd (charToCommand c) (n + 1)], []) := by
  have hs := squash_replicate c n
  rw [parse, List.length_replicate, List.replicate_succ]
  simp [parseF, h, hs]

/-! The claim theorems. -/

/-- C1: parsing `[-]` or `[+]` appends a single synthetic Zero command node
(count 1, not a Loop node); interpreting that Zero node sets the current
cell to 0 in one primitive step (`exec 2` suffices for the whole node), and
this is observably equivalent to interpreting the unfolded loop that
decrements (resp. increments) the cell until it reaches 0: from every
starting cell value `v` both executions end in exactly the same state, with
the cell 0 — the decrement loop after `v` passes, the increment loop after
`256 - v` passes. -/
theorem C1_zero_idiom (s : IState) (v : Nat)
    (hv : readCell s = some v) (h256 : v < 256) :
    parse ['[', '-', ']'] = some ([Node.cmd Command.ZERO 1], [])
    ∧ parse ['[', '+', ']'] = some ([Node.cmd Command.ZERO 1], [])
    ∧ step Command.ZERO s = some (setCell s 0)
    ∧ exec 2 [Node.cmd Command.ZERO 1] s = some (setCell s 0)
    ∧ exec (v + 3) [Node.loop [Node.cmd Command.DECREMENT 1]] s
        = some (setCell s 0)
    ∧ exec ((256 - v) + 3) [Node.loop [Node.cmd Command.INCREMENT 1]] s
        = some (setCell s 0) := by
  have hb := (readCell_eq_some hv).1
  have hstep : step Command.ZERO s = some (setCell s 0) := by
    simp [step, writeCell_of_bounds hb]
  refine ⟨rfl, rfl, hstep, ?_, exec_dec_loop hv h256,
    exec_inc_loop hv h256 (by omega)⟩
  rw [exec_single_cmd _ _ _ _ (by omega)]
  simp [repeatStep, hstep]

/-- Witness for C1 at starting cell value 5. -/
theorem C1_zero_idiom_witness :
    readCell (stateWith 5) = some 5 ∧ (5 : Nat) < 256
    ∧ exec (5 + 3) [Node.loop [Node.cmd Command.DECREMENT 1]] (stateWith 5)
        = some (setCell (stateWith 5) 0)
    ∧ exec ((256 - 5) + 3) [Node.loop [Node.cmd Command.INCREMENT 1]]
        (stateWith 5) = some (setCell (stateWith 5) 0) :=
  ⟨by decide, by decide,
   (C1_zero_idiom (stateWith 5) 5 (by decide) (by decide)).2.2.2.2.1,
   (C1_zero_idiom (stateWith 5) 5 (by decide) (by decide)).2.2.2.2.2⟩

/-- C2: the loop-to-Zero rewrite in `parse` does not inspect the folded
child's count, contradicting the claimed count-1 guard: `[--]` (a loop
whose single child is a DECREMENT node with count 2) is also rewritten to a
synthetic Zero node.  The rewrite is unsound there: the original loop never
terminates from the odd starting cell value 1 (every pass keeps the cell
odd), while the substituted Zero node clears the cell at once. -/
theorem C2_rewrite_ignores_count :
    parse ['[', '-', '-', ']'] = some ([Node.cmd Command.ZERO 1], [])
    ∧ (∀ fuel, exec fuel [Node.loop [Node.cmd Command.DECREMENT 2]]
        (stateWith 1) = none)
    ∧ exec 2 [Node.cmd Command.ZERO 1] (stateWith 1)
        = some (setCell (stateWith 1) 0) :=
  ⟨rfl,
   fun _ => exec_dec2_loop_diverges (v := 1) (by decide) (by decide)
     (by decide),
   rfl⟩

/-- C3: a loop whose body is empty, has several children, or has a single
non-Increment/Decrement command child is indeed appended unchanged as a
Loop node — but for a single nested Loop child (source `[[]]`) the code
dereferences the null result of `dynamic_cast<CommandNode*>` (undefined
behavior, modelled as `none`), so that loop is not appended unchanged. -/
theorem C3_nested_single_loop_child :
    parse ['[', '[', ']', ']'] = none
    ∧ parse ['[', ']'] = some ([Node.loop []], [])
    ∧ parse ['[', '>', '<', ']']
        = some ([Node.loop [Node.cmd Command.SHIFT_RIGHT 1,
            Node.cmd Command.SHIFT_LEFT 1]], [])
    ∧ parse ['[', '.', ']']
        = some ([Node.loop [Node.cmd Command.OUTPUT 1]], []) :=
  ⟨rfl, rfl, rfl, rfl⟩

/-- C4: malformed input is not detected: a stray `]` makes the top-level
`parse` return silently with an empty child list (and `main` still hands
the program to the interpreter), and an unmatched `[` consumes to
end-of-stream and appends the partial loop — no MalformedSource failure
exists anywhere. -/
theorem C4_malformed_silently_accepted :
    parse [']'] = some ([], [])
    ∧ parse ['['] = some ([Node.loop []], [])
    ∧ parseTop [']'] = some []
    ∧ driverAccepts [[']']] [] = some [[]] :=
  ⟨rfl, rfl, rfl, rfl⟩

/-- C5: there is no pointer bounds check: the program `<` runs to
completion with the pointer at -1, no diagnostic and no output (so no
OutOfBoundsPointer error is triggered), and only a later cell access
through the out-of-range pointer is undefined (modelled as `none`), as the
continuation `<+` shows. -/
theorem C5_no_pointer_bounds_check :
    parse ['<'] = some ([Node.cmd Command.SHIFT_LEFT 1], [])
    ∧ (visitProgram 2 [Node.cmd Command.SHIFT_LEFT 1] state0).map
        (fun s => (s.pointer, s.out)) = some (-1, [])
    ∧ exec 3 [Node.cmd Command.SHIFT_LEFT 1, Node.cmd Command.INCREMENT 1]
        (initState state0) = none :=
  ⟨rfl, rfl, rfl⟩

/-- C6: run-length folding: for every N ≥ 1 and every command character,
parsing N consecutive copies of the character yields exactly one command
node with that operation and count N; the printer re-expands that node to
exactly N copies of the original character; and interpreting the count-N
node from any state is identical to interpreting N separate count-1 nodes
of the same operation. -/
theorem C6_run_length_folding (c : Char) (hc : isCmdChar c = true)
    (N : Nat) (hN : 1 ≤ N) :
    parse (List.replicate N c) = some ([Node.cmd (charToCommand c) N], [])
    ∧ printCommandNode (charToCommand c) N = List.replicate N c
    ∧ ∀ (fuel : Nat) (s : IState), N < fuel →
        exec fuel [Node.cmd (charToCommand c) N] s
          = exec fuel (List.replicate N (Node.cmd (charToCommand c) 1)) s := by
  obtain ⟨n, rfl⟩ : ∃ n, N = n + 1 := ⟨N - 1, by omega⟩
  refine ⟨parse_replicate hc n, ?_, ?_⟩
  · simp [printCommandNode, commandChar_charToCommand hc]
  · intro fuel s hfuel
    rw [exec_single_cmd _ _ _ _ (by omega), exec_replicate_one hfuel]

/-- Witness for C6 at character `+`, run length 3, fuel 5. -/
theorem C6_run_length_folding_witness :
    isCmdChar '+' = true ∧ (1 : Nat) ≤ 3 ∧ (3 : Nat) < 5
    ∧ parse (List.replicate 3 '+')
        = some ([Node.cmd (charToCommand '+') 3], [])
    ∧ printCommandNode (charToCommand '+') 3 = List.replicate 3 '+'
    ∧ exec 5 [Node.cmd (charToCommand '+') 3] state0
        = exec 5 (List.replicate 3 (Node.cmd (charToCommand '+') 1))
            state0 := by
  have h := C6_run_length_folding '+' (by decide) 3 (by omega)
  exact ⟨by decide, by omega, by omega, h.1, h.2.1, h.2.2 5 state0 (by omega)⟩

/-- C7: the initialization at the top of `Interpreter::visit(Program)` does
zero every tape cell and reset the pointer, but the loop bound `i <= 30000`
walks one index past the last cell of the 30000-cell tape: index 30000 is
among the written indices although it is not a valid cell, so the claimed
"writing no cell outside the tape's bounds" fails. -/
theorem C7_init_overruns_tape :
    (∀ i : Nat, i < 30000 → i ∈ initWriteIndices)
    ∧ (∃ i ∈ initWriteIndices, ¬ i < 30000)
    ∧ (∀ (s : IState) (i : Nat), i ∈ initWriteIndices
        → (initState s).memory i = 0)
    ∧ (∀ s : IState, (initState s).pointer = 0) := by
  refine ⟨?_, ⟨30000, ?_, by omega⟩, ?_, fun s => rfl⟩
  · intro i hi
    simp only [initWriteIndices, List.mem_range]
    omega
  · simp [initWriteIndices, List.mem_range]
  · intro s i hi
    simp [initState, hi]

/-- Witness for C7 at cell index 5. -/
theorem C7_init_overruns_tape_witness :
    (5 : Nat) < 30000 ∧ (5 : Nat) ∈ initWriteIndices
    ∧ (initState state0).memory 5 = 0 := by
  have h := C7_init_overruns_tape
  have h5 : (5 : Nat) ∈ initWriteIndices := h.1 5 (by omega)
  exact ⟨by omega, h5, h.2.2.1 state0 5 h5⟩

/-- C8: for every starting cell value and every count N, interpreting an
Increment node of count N then a Decrement node of count N (or the other
order) at the same pointer returns exactly the starting state: the mod-256
cell arithmetic round-trips. -/
theorem C8_inc_dec_roundtrip (s : IState) (v N fuel : Nat)
    (hv : readCell s = some v) (h256 : v < 256) (hfuel : 3 ≤ fuel) :
    exec fuel [Node.cmd Command.INCREMENT N, Node.cmd Command.DECREMENT N] s
        = some s
    ∧ exec fuel [Node.cmd Command.DECREMENT N, Node.cmd Command.INCREMENT N] s
        = some s := by
  obtain ⟨k, rfl⟩ : ∃ k, fuel = k + 3 := ⟨fuel - 3, by omega⟩
  have hb := (readCell_eq_some hv).1
  constructor
  · rw [show k + 3 = (k + 2) + 1 from rfl, exec_cmd,
      repeatStep_INCREMENT N hv h256]
    have hv2 : readCell (setCell s ((v + N) % 256)) = some ((v + N) % 256) :=
      readCell_setCell s _ hb
    show exec (k + 2) [Node.cmd Command.DECREMENT N]
      (setCell s ((v + N) % 256)) = some s
    rw [exec_single_cmd _ _ _ _ (by omega),
      repeatStep_DECREMENT N hv2 (Nat.mod_lt _ (by omega)), setCell_setCell]
    have harith : ((v + N) % 256 + 255 * N) % 256 = v := by omega
    rw [harith, setCell_self (readCell_eq_some hv).2]
  · rw [show k + 3 = (k + 2) + 1 from rfl, exec_cmd,
      repeatStep_DECREMENT N hv h256]
    have hv2 : readCell (setCell s ((v + 255 * N) % 256))
        = some ((v + 255 * N) % 256) := readCell_setCell s _ hb
    show exec (k + 2) [Node.cmd Command.INCREMENT N]
      (setCell s ((v + 255 * N) % 256)) = some s
    rw [exec_single_cmd _ _ _ _ (by omega),
      repeatStep_INCREMENT N hv2 (Nat.mod_lt _ (by omega)), setCell_setCell]
    have harith : ((v + 255 * N) % 256 + N) % 256 = v := by omega
    rw [harith, setCell_self (readCell_eq_some hv).2]

/-- Witness for C8 at starting cell value 7, count 4, fuel 3. -/
theorem C8_inc_dec_roundtrip_witness :
    readCell (stateWith 7) = some 7 ∧ (7 : Nat) < 256 ∧ (3 : Nat) ≤ 3
    ∧ exec 3 [Node.cmd Command.INCREMENT 4, Node.cmd Command.DECREMENT 4]
        (stateWith 7) = some (stateWith 7) :=
  ⟨by decide, by decide, by decide,
   (C8_inc_dec_roundtrip (stateWith 7) 7 4 3 (by decide) (by decide)
     (by decide)).1⟩

/-- C9: invoking Input with the external stream exhausted leaves the whole
machine state unchanged — the cell keeps its value, no error is signalled
(`cin.get` fails without touching its argument) — and execution continues
with the next operation; since the stream stays empty, every later Input of
the run (any repeat count) behaves the same way. -/
theorem C9_input_exhausted (s : IState) (hinp : s.inp = [])
    (hb : 0 ≤ s.pointer ∧ s.pointer < 30000) :
    step Command.INPUT s = some s
    ∧ (∀ n, repeatStep Command.INPUT n s = some s)
    ∧ (∀ (fuel : Nat) (n : Nat) (rest : List Node),
        exec (fuel + 1) (Node.cmd Command.INPUT n :: rest) s
          = exec fuel rest s) := by
  have hstep : step Command.INPUT s = some s := by simp [step, hinp, hb]
  have hrep : ∀ n, repeatStep Command.INPUT n s = some s := by
    intro n
    induction n with
    | zero => rfl
    | succ m ih => simp [repeatStep, hstep, ih]
  refine ⟨hstep, hrep, ?_⟩
  intro fuel n rest
  rw [exec_cmd, hrep n]

/-- Witness for C9 in the empty-input starting state. -/
theorem C9_input_exhausted_witness :
    state0.inp = [] ∧ (0 ≤ state0.pointer ∧ state0.pointer < 30000)
    ∧ step Command.INPUT state0 = some state0 :=
  ⟨rfl, by decide, (C9_input_exhausted state0 rfl (by decide)).1⟩

theorem driverAccepts_cons_none {f : List Char} {fs : List (List Char)}
    {acc : List Node} (hp : parseTop f = none) :
    driverAccepts (f :: fs) acc = none := by
  simp [driverAccepts, hp]

theorem driverAccepts_cons_some {f : List Char} {fs : List (List Char)}
    {acc ns : List Node} (hp : parseTop f = some ns) :
    driverAccepts (f :: fs) acc
      = match driverAccepts fs (acc ++ ns) with
        | some rest => some ((acc ++ ns) :: rest)
        | none => none := by
  simp [driverAccepts, hp]

/-- C10: `main` parses every file into the one shared Program whose
children accumulate across files: the child list handed to the interpreter
after file k (which re-initializes the tape, by definition of
`visitProgram`) is the prior contents plus the concatenation of the parses
of files 1 through k — not the parse of file k alone. -/
theorem C10_driver_accumulates (fs : List (List Char)) (acc : List Node)
    (l : List (List Node)) (h : driverAccepts fs acc = some l) :
    l.length = fs.length
    ∧ ∀ k (hk : k < l.length), ∃ gs : List (List Node),
        parseAll (fs.take (k + 1)) = some gs
        ∧ l.get ⟨k, hk⟩ = acc ++ gs.flatten := by
  induction fs generalizing acc l with
  | nil =>
    simp only [driverAccepts] at h
    injection h with h
    subst h
    refine ⟨rfl, fun k hk => ?_⟩
    simp at hk
  | cons f fs ih =>
    cases hp : parseTop f with
    | none =>
      rw [driverAccepts_cons_none hp] at h
      cases h
    | some ns =>
      rw [driverAccepts_cons_some hp] at h
      cases hd : driverAccepts fs (acc ++ ns) with
      | none => rw [hd] at h; cases h
      | some rest =>
        rw [hd] at h
        injection h with h
        subst h
        obtain ⟨hlen, hget⟩ := ih (acc ++ ns) rest hd
        constructor
        · simp [hlen]
        · intro k hk
          cases k with
          | zero =>
            refine ⟨[ns], ?_, ?_⟩
            · simp [parseAll, hp]
            · simp
          | succ m =>
            have hm : m < rest.length := by
              simp only [List.length_cons] at hk
              omega
            obtain ⟨gs, hgs, hval⟩ := hget m hm
            refine ⟨ns :: gs, ?_, ?_⟩
            · rw [List.take_succ_cons]
              simp [parseAll, hp, hgs]
            · show rest.get ⟨m, hm⟩ = acc ++ (ns :: gs).flatten
              rw [hval]
              simp [List.append_assoc]

/-- Witness for C10: two files `+` and `-`; the second interpreted program
is the concatenation of both parses, not the second parse alone. -/
theorem C10_driver_accumulates_witness :
    driverAccepts [['+'], ['-']] []
      = some [[Node.cmd Command.INCREMENT 1],
          [Node.cmd Command.INCREMENT 1, Node.cmd Command.DECREMENT 1]]
    ∧ ([[Node.cmd Command.INCREMENT 1],
        [Node.cmd Command.INCREMENT 1, Node.cmd Command.DECREMENT 1]] :
          List (List Node)).length = 2
    ∧ ∃ gs : List (List Node),
        parseAll ([['+'], ['-']].take 2) = some gs
        ∧ ([[Node.cmd Command.INCREMENT 1],
            [Node.cmd Command.INCREMENT 1, Node.cmd Command.DECREMENT 1]] :
              List (List Node)).get ⟨1, by decide⟩ = [] ++ gs.flatten := by
  have h := C10_driver_accumulates [['+'], ['-']] []
    [[Node.cmd Command.INCREMENT 1],
     [Node.cmd Command.INCREMENT 1, Node.cmd Command.DECREMENT 1]] rfl
  exact ⟨rfl, h.1, h.2 1 (by decide)⟩

end Brainfuck
